import Mathlib

/-!
Verification of the MemeTracker workload synthesizer
(src/dataset/preprocessing/memetracker_convert.py).

The synthesizer reads token lists (one per raw log line), filters them,
pads accepted keys to a fixed width, writes the first INIT_KEYS accepted
keys to a load file and converts later accepted keys into (op, key) pairs
distributed round-robin over NUM_THREADS worker files.

Randomness is modelled by an explicit tape: `floats i` is the value of the
i-th draw when it is consumed by random.random(), `ints i` the entropy of
the i-th draw when it is consumed by random.randrange (taken modulo the
range size, so every in-range outcome is representable); the state field
`ridx` counts consumed draws.  randrange(0, 0) raises ValueError in
Python; the model signals that with `StepResult.err`, which aborts the
run with `none`.
-/

namespace Memetracker

inductive Workload where
  | D
  | E
deriving DecidableEq

inductive Phase where
  | load
  | thread
deriving DecidableEq

/-- The configuration constants NUM_THREADS, INIT_KEYS, PER_THREAD_KEYS and
KEY_LENGTH of the script (lines 18-21), kept as parameters. -/
structure Config where
  numThreads : Nat
  initKeys : Nat
  perThreadKeys : Nat
  keyLength : Nat
deriving DecidableEq

structure RandTape where
  floats : Nat → ℚ
  ints : Nat → Nat

/-- The mutable state of one per-workload synthesis run: `phase` is
current_state, then counter, current_thread, key_buffer and inserted_keys
as in the script; `load_lines` and `ops` record the keys written to the
load file and the (thread index, op, key) triples written to the worker
files; `ridx` is the random-tape cursor. -/
structure SynthState where
  phase : Phase
  counter : Nat
  current_thread : Nat
  key_buffer : List String
  inserted_keys : List String
  load_lines : List String
  ops : List (Nat × String × String)
  ridx : Nat
deriving DecidableEq

/-- Key normalization, line 71: `key = key + "/" * (KEY_LENGTH - len(key))`.
Python string repetition with a negative count yields the empty string,
which Nat subtraction models exactly. -/
def padKey (key : String) (w : Nat) : String :=
  key ++ String.mk (List.replicate (w - key.length) '/')

/-- Record filter, lines 66-70: skip lines with fewer than two tokens or
whose first token is neither "L" nor "P"; otherwise accept the second
token as the raw key. -/
def acceptLine (tokens : List String) : Option String :=
  match tokens with
  | t :: k :: _ => if t = "L" ∨ t = "P" then some k else none
  | _ => none

/-- generate_op, lines 34-56.  Returns the written (op, key) pair together
with the updated key_buffer, inserted_keys and tape cursor; `none` models
the ValueError raised by `random.randrange(0, 0)` when workload E draws a
scan with no inserted keys. -/
def generate_op (w : Workload) (tape : RandTape) (ridx : Nat)
    (key_buffer inserted_keys : List String) (current_key : String) :
    Option (String × String × List String × List String × Nat) :=
  match w with
  | .D =>
    if tape.floats ridx < 9/10 then
      if key_buffer.length = 0 then
        some ("r", current_key, key_buffer, inserted_keys, ridx + 1)
      else
        some ("r", key_buffer.getD (tape.ints (ridx + 1) % key_buffer.length) "",
          key_buffer, inserted_keys, ridx + 2)
    else
      some ("i", current_key,
        (if key_buffer.length = 10 then key_buffer.tail else key_buffer) ++ [current_key],
        inserted_keys, ridx + 1)
  | .E =>
    if tape.floats ridx < 9/10 then
      if inserted_keys.length = 0 then
        none
      else
        some ("s", inserted_keys.getD (tape.ints (ridx + 1) % inserted_keys.length) "",
          key_buffer, inserted_keys, ridx + 2)
    else
      some ("i", current_key, key_buffer, inserted_keys ++ [current_key], ridx + 1)

/-- Result of processing one input line: `ok` continues with the next
line, `brk` models the `break` that abandons the current input file, and
`err` models an uncaught exception. -/
inductive StepResult where
  | ok (st : SynthState)
  | brk (st : SynthState)
  | err

/-- Processing of one input line, lines 60-91 of the script: filter the
line, pad the key, then either the load-phase branch (lines 73-81) or the
thread-phase branch (lines 83-91). -/
def processLine (cfg : Config) (w : Workload) (tape : RandTape)
    (st : SynthState) (tokens : List String) : StepResult :=
  match acceptLine tokens with
  | none => .ok st
  | some rawKey =>
    match st.phase with
    | .load =>
      if st.counter + 1 = cfg.initKeys + 1 then
        .ok { st with counter := 0, phase := .thread }
      else
        .ok { st with counter := st.counter + 1,
                      inserted_keys := st.inserted_keys ++ [padKey rawKey cfg.keyLength],
                      load_lines := st.load_lines ++ [padKey rawKey cfg.keyLength] }
    | .thread =>
      if st.current_thread = cfg.numThreads then
        if st.counter + 1 ≥ cfg.perThreadKeys - 1 then
          .brk { st with current_thread := 0, counter := st.counter + 1 }
        else
          match generate_op w tape st.ridx st.key_buffer st.inserted_keys
              (padKey rawKey cfg.keyLength) with
          | none => .err
          | some (op, qkey, kb, ik, r) =>
            .ok { st with current_thread := 1, counter := st.counter + 1,
                          key_buffer := kb, inserted_keys := ik, ridx := r,
                          ops := st.ops ++ [(0, op, qkey)] }
      else
        match generate_op w tape st.ridx st.key_buffer st.inserted_keys
            (padKey rawKey cfg.keyLength) with
        | none => .err
        | some (op, qkey, kb, ik, r) =>
          .ok { st with current_thread := st.current_thread + 1,
                        key_buffer := kb, inserted_keys := ik, ridx := r,
                        ops := st.ops ++ [(st.current_thread, op, qkey)] }

/-- One input file (the `while True` read loop): a `brk` stops reading the
remaining lines of this file only. -/
def processFile (cfg : Config) (w : Workload) (tape : RandTape) :
    SynthState → List (List String) → Option SynthState
  | st, [] => some st
  | st, tks :: rest =>
    match processLine cfg w tape st tks with
    | .ok st₁ => processFile cfg w tape st₁ rest
    | .brk st₁ => some st₁
    | .err => none

/-- The `for filename in file_list` loop: files are processed in order
with the state carried across files. -/
def processFiles (cfg : Config) (w : Workload) (tape : RandTape) :
    SynthState → List (List (List String)) → Option SynthState
  | st, [] => some st
  | st, f :: fs =>
    match processFile cfg w tape st f with
    | some st₁ => processFiles cfg w tape st₁ fs
    | none => none

/-- Fresh per-workload state (lines 24-32). -/
def initState : SynthState :=
  { phase := .load, counter := 0, current_thread := 0, key_buffer := [],
    inserted_keys := [], load_lines := [], ops := [], ridx := 0 }

/-- One full synthesis run for one workload label. -/
def runSynth (cfg : Config) (w : Workload) (tape : RandTape)
    (files : List (List (List String))) : Option SynthState :=
  processFiles cfg w tape initState files

/-- The accepted raw keys of one file, in input order. -/
def fileAccepted (lines : List (List String)) : List String :=
  lines.filterMap acceptLine

/-- The accepted raw keys of the whole input stream, in input order. -/
def acceptedOf : List (List (List String)) → List String
  | [] => []
  | f :: fs => fileAccepted f ++ acceptedOf fs

/-- The key of a worker-file line when it is an insert operation. -/
def insKey (e : Nat × String × String) : Option String :=
  if e.2.1 = "i" then some e.2.2 else none

/-! Concrete inputs used by counterexamples and witnesses. -/

/-- A tape whose float draws are all 0 (< 0.9) and whose range draws are 0. -/
def tape0 : RandTape := ⟨fun _ => 0, fun _ => 0⟩

/-- A second, definitionally identical all-zero tape. -/
def tape0b : RandTape := ⟨fun _ => 0, fun _ => 0⟩

/-- A tape whose float draws are all 1 (≥ 0.9). -/
def tapeHi : RandTape := ⟨fun _ => 1, fun _ => 0⟩

/-- Configuration of the concrete scenario of claim C1:
NumThreads = 2, InitialLoadCount = 2, KeyWidth = 5. -/
def cfgC1 : Config := ⟨2, 2, 100, 5⟩

/-- The four input records of the scenario of claim C1, as one file. -/
def filesC1 : List (List (List String)) :=
  [[["L", "keyA"], ["X", "ignored"], ["P", "keyB"], ["L", "keyC"]]]

/-- The scenario of claim C1 extended with a fifth record ("L", "keyD"). -/
def filesC1x : List (List (List String)) :=
  [[["L", "keyA"], ["X", "ignored"], ["P", "keyB"], ["L", "keyC"], ["L", "keyD"]]]

/-- Small configuration exercising the early-termination bound:
NumThreads = 1, InitialLoadCount = 0, PerThreadTargetCount = 2. -/
def cfg2 : Config := ⟨1, 0, 2, 5⟩

/-- Three input files, enough records to hit the round-counter break in
each of them. -/
def files2 : List (List (List String)) :=
  [[["L", "a"], ["L", "b"], ["L", "c"]],
   [["L", "e"], ["L", "f"]],
   [["L", "g"], ["L", "h"]]]

/-! Claims C3 and C8: the key normalizer. -/

/-- C3: the claim states that a raw key token longer than KeyWidth makes
normalization fail fast (an assertion) rather than silently emitting an
unpadded key.  This is false: the code computes
`key + "/" * (KEY_LENGTH - len(key))`, and for the 6-character token
"abcdef" with KeyWidth 5 the repetition count is negative, so the token is
returned unchanged (unpadded, 6 characters) and no error of any kind is
signalled. -/
theorem C3_counterexample :
    padKey "abcdef" 5 = "abcdef" ∧ ("abcdef" : String).length = 6 := by
  constructor
  · rfl
  · rfl

/-- C3 (amended): for every raw key token whose length is at least the
configured width, normalization silently returns the token unchanged — no
padding, no truncation and no failure. -/
theorem C3_amended (k : String) (w : Nat) (h : w ≤ k.length) :
    padKey k w = k := by
  unfold padKey
  rw [Nat.sub_eq_zero_of_le h]
  show k ++ "" = k
  simp

/-- C3 (amended) at a concrete input: "xyz" with width 2 passes through
unchanged. -/
theorem C3_witness : padKey "xyz" 2 = "xyz" :=
  C3_amended "xyz" 2 (by decide)

/-- C8: for every raw key of length at most KeyWidth, the normalized key
has exactly KeyWidth characters, its prefix is the raw key, and the
remaining characters are the filler character '/'. -/
theorem C8_normalizer (k : String) (w : Nat) (h : k.length ≤ w) :
    (padKey k w).length = w ∧
    (padKey k w).data.take k.length = k.data ∧
    (padKey k w).data.drop k.length = List.replicate (w - k.length) '/' := by
  have hdata : (padKey k w).data = k.data ++ List.replicate (w - k.length) '/' := rfl
  have hlen : k.length = k.data.length := rfl
  refine ⟨?_, ?_, ?_⟩
  · show (padKey k w).data.length = w
    rw [hdata, List.length_append, List.length_replicate]
    omega
  · rw [hdata, hlen, List.take_left]
  · rw [hdata, hlen, List.drop_left]

/-- C8 at a concrete input: "ab" padded to width 5. -/
theorem C8_witness :
    (padKey "ab" 5).length = 5 ∧
    (padKey "ab" 5).data.take ("ab" : String).length = ("ab" : String).data ∧
    (padKey "ab" 5).data.drop ("ab" : String).length =
      List.replicate (5 - ("ab" : String).length) '/' :=
  C8_normalizer "ab" 5 (by decide)

/-! Claim C1: the concrete four-record scenario. -/

/-- C1: the claim states that in the scenario
[("L","keyA"), ("X","ignored"), ("P","keyB"), ("L","keyC")] with
InitialLoadCount 2 the third accepted key "keyC" is processed as the first
ThreadGeneration-phase key and produces exactly one operation.  This is
false: the record that makes the counter reach InitialLoadCount + 1 is
consumed by the phase transition itself (lines 74-77) and is neither
written to the load file nor handed to generate_op, so the run produces no
operation at all and every worker file stays empty. -/
theorem C1_counterexample :
    (runSynth cfgC1 .D tape0 filesC1).map SynthState.ops = some [] ∧
    (runSynth cfgC1 .D tape0 filesC1).map (fun st => st.ops.length) ≠ some 1 := by
  constructor
  · rfl
  · decide

/-- C1 (amended): in the scenario the Load file is exactly
["keyA/", "keyB/"] (the "X" line is skipped), but the third accepted key
"keyC" is consumed by the phase transition and produces no operation, so
all worker files are empty; a fourth accepted key (appending ("L","keyD"))
would be the first ThreadGeneration-phase key, producing exactly one
operation — ("i","keyD/") or, the recent-key buffer being empty, the
degenerate read ("r","keyD/") — written to worker file 0. -/
theorem C1_amended (tape : RandTape) :
    (runSynth cfgC1 .D tape filesC1).map SynthState.load_lines = some ["keyA/", "keyB/"] ∧
    (runSynth cfgC1 .D tape filesC1).map SynthState.ops = some [] ∧
    (runSynth cfgC1 .D tape filesC1x).map SynthState.load_lines = some ["keyA/", "keyB/"] ∧
    ((runSynth cfgC1 .D tape filesC1x).map SynthState.ops = some [(0, "r", "keyD/")] ∨
     (runSynth cfgC1 .D tape filesC1x).map SynthState.ops = some [(0, "i", "keyD/")]) := by
  refine ⟨rfl, rfl, ?_, ?_⟩
  · rcases lt_or_le (tape.floats 0) (9/10 : ℚ) with h | h
    · simp [runSynth, processFiles, processFile, processLine, acceptLine, padKey,
        generate_op, initState, cfgC1, filesC1x, h]
      decide
    · simp [runSynth, processFiles, processFile, processLine, acceptLine, padKey,
        generate_op, initState, cfgC1, filesC1x, not_lt.mpr h]
      decide
  · rcases lt_or_le (tape.floats 0) (9/10 : ℚ) with h | h
    · left
      simp [runSynth, processFiles, processFile, processLine, acceptLine, padKey,
        generate_op, initState, cfgC1, filesC1x, h]
      decide
    · right
      simp [runSynth, processFiles, processFile, processLine, acceptLine, padKey,
        generate_op, initState, cfgC1, filesC1x, not_lt.mpr h]
      decide

/-! Claim C2: the operation-count bound.  The counterexample shows that the
round-counter break (line 88-89) only leaves the `while True` loop over
the current input file: the `for filename in file_list` loop then opens
the next file, and each later file contributes up to NumThreads further
operations, so the total can exceed NumThreads * PerThreadTargetCount. -/

/-- C2: the claim states that at most NumThreads * PerThreadTargetCount
operations are generated and that reaching the round bound terminates the
entire run, reading no input from later files.  This is false: with
NumThreads = 1, PerThreadTargetCount = 2 and three input files, the run
generates 3 operations (one from each of the two later files after the
bound was first reached), exceeding the claimed bound 1 * 2 = 2. -/
theorem C2_counterexample :
    (runSynth cfg2 .D tape0 files2).map (fun st => st.ops.length) = some 3 ∧
    ¬ 3 ≤ cfg2.numThreads * cfg2.perThreadKeys := by
  constructor
  · with_unfolding_all decide
  · decide

/-! Claim C9: determinism given a pinned random source. -/

/-- C9: a synthesis run is a deterministic function of the configuration,
the input stream and the random source: two runs whose tapes carry the
same draws produce identical load-file and worker-file contents. -/
theorem C9_determinism (cfg : Config) (w : Workload) (t₁ t₂ : RandTape)
    (files : List (List (List String)))
    (h₁ : t₁.floats = t₂.floats) (h₂ : t₁.ints = t₂.ints) :
    runSynth cfg w t₁ files = runSynth cfg w t₂ files := by
  have ht : t₁ = t₂ := by
    cases t₁
    cases t₂
    simp only [RandTape.mk.injEq]
    exact ⟨h₁, h₂⟩
  rw [ht]

/-- C9 at concrete inputs: the two all-zero tapes drive identical runs. -/
theorem C9_witness :
    runSynth cfgC1 .D tape0 filesC1 = runSynth cfgC1 .D tape0b filesC1 :=
  C9_determinism cfgC1 .D tape0 tape0b filesC1 rfl rfl

/-! Generic invariant-preservation lemmas for the two processing loops. -/

theorem processFile_inv (cfg : Config) (w : Workload) (tape : RandTape)
    (P : SynthState → Prop)
    (hok : ∀ st tks st₁, processLine cfg w tape st tks = .ok st₁ → P st → P st₁)
    (hbrk : ∀ st tks st₁, processLine cfg w tape st tks = .brk st₁ → P st → P st₁) :
    ∀ (lines : List (List String)) (st st₁ : SynthState),
      processFile cfg w tape st lines = some st₁ → P st → P st₁ := by
  intro lines
  induction lines with
  | nil =>
    intro st st₁ h hP
    have h₂ : some st = some st₁ := h
    cases h₂
    exact hP
  | cons tks rest ih =>
    intro st st₁ h hP
    cases hl : processLine cfg w tape st tks with
    | ok s =>
      rw [show processFile cfg w tape st (tks :: rest)
            = processFile cfg w tape s rest by
          simp only [processFile, hl]] at h
      exact ih s st₁ h (hok st tks s hl hP)
    | brk s =>
      rw [show processFile cfg w tape st (tks :: rest) = some s by
          simp only [processFile, hl]] at h
      cases h
      exact hbrk st tks _ hl hP
    | err =>
      rw [show processFile cfg w tape st (tks :: rest) = none by
          simp only [processFile, hl]] at h
      cases h

theorem processFiles_inv (cfg : Config) (w : Workload) (tape : RandTape)
    (P : SynthState → Prop)
    (hok : ∀ st tks st₁, processLine cfg w tape st tks = .ok st₁ → P st → P st₁)
    (hbrk : ∀ st tks st₁, processLine cfg w tape st tks = .brk st₁ → P st → P st₁) :
    ∀ (files : List (List (List String))) (st st₁ : SynthState),
      processFiles cfg w tape st files = some st₁ → P st → P st₁ := by
  intro files
  induction files with
  | nil =>
    intro st st₁ h hP
    have h₂ : some st = some st₁ := h
    cases h₂
    exact hP
  | cons f fs ih =>
    intro st st₁ h hP
    cases hf : processFile cfg w tape st f with
    | some s =>
      rw [show processFiles cfg w tape st (f :: fs) = processFiles cfg w tape s fs by
          simp only [processFiles, hf]] at h
      exact ih s st₁ h (processFile_inv cfg w tape P hok hbrk f st s hf hP)
    | none =>
      rw [show processFiles cfg w tape st (f :: fs) = none by
          simp only [processFiles, hf]] at h
      cases h

theorem processFile_ne_none (cfg : Config) (w : Workload) (tape : RandTape)
    (P : SynthState → Prop)
    (hok : ∀ st tks st₁, processLine cfg w tape st tks = .ok st₁ → P st → P st₁)
    (hne : ∀ st tks, P st → processLine cfg w tape st tks ≠ .err) :
    ∀ (lines : List (List String)) (st : SynthState),
      P st → processFile cfg w tape st lines ≠ none := by
  intro lines
  induction lines with
  | nil =>
    intro st _ h
    cases h
  | cons tks rest ih =>
    intro st hP h
    cases hl : processLine cfg w tape st tks with
    | ok s =>
      rw [show processFile cfg w tape st (tks :: rest)
            = processFile cfg w tape s rest by
          simp only [processFile, hl]] at h
      exact ih s (hok st tks s hl hP) h
    | brk s =>
      rw [show processFile cfg w tape st (tks :: rest) = some s by
          simp only [processFile, hl]] at h
      cases h
    | err =>
      exact hne st tks hP hl

theorem processFiles_ne_none (cfg : Config) (w : Workload) (tape : RandTape)
    (P : SynthState → Prop)
    (hok : ∀ st tks st₁, processLine cfg w tape st tks = .ok st₁ → P st → P st₁)
    (hbrk : ∀ st tks st₁, processLine cfg w tape st tks = .brk st₁ → P st → P st₁)
    (hne : ∀ st tks, P st → processLine cfg w tape st tks ≠ .err) :
    ∀ (files : List (List (List String))) (st : SynthState),
      P st → processFiles cfg w tape st files ≠ none := by
  intro files
  induction files with
  | nil =>
    intro st _ h
    cases h
  | cons f fs ih =>
    intro st hP h
    cases hf : processFile cfg w tape st f with
    | some s =>
      rw [show processFiles cfg w tape st (f :: fs) = processFiles cfg w tape s fs by
          simp only [processFiles, hf]] at h
      exact ih s (processFile_inv cfg w tape P hok hbrk f st s hf hP) h
    | none =>
      exact processFile_ne_none cfg w tape P hok hne f st hP hf

/-! Exhaustive case analysis of one processing step, shared by the
invariant proofs below. -/

theorem processLine_cases (cfg : Config) (w : Workload) (tape : RandTape)
    (st : SynthState) (tks : List String) :
    (acceptLine tks = none ∧ processLine cfg w tape st tks = .ok st) ∨
    (∃ rawKey, acceptLine tks = some rawKey ∧ st.phase = .load ∧
      st.counter + 1 = cfg.initKeys + 1 ∧
      processLine cfg w tape st tks = .ok { st with counter := 0, phase := .thread }) ∨
    (∃ rawKey, acceptLine tks = some rawKey ∧ st.phase = .load ∧
      st.counter + 1 ≠ cfg.initKeys + 1 ∧
      processLine cfg w tape st tks =
        .ok { st with counter := st.counter + 1,
                      inserted_keys := st.inserted_keys ++ [padKey rawKey cfg.keyLength],
                      load_lines := st.load_lines ++ [padKey rawKey cfg.keyLength] }) ∨
    (∃ rawKey, acceptLine tks = some rawKey ∧ st.phase = .thread ∧
      st.current_thread = cfg.numThreads ∧ st.counter + 1 ≥ cfg.perThreadKeys - 1 ∧
      processLine cfg w tape st tks
        = .brk { st with current_thread := 0, counter := st.counter + 1 }) ∨
    (∃ rawKey op qkey kb ik r, acceptLine tks = some rawKey ∧ st.phase = .thread ∧
      st.current_thread = cfg.numThreads ∧ ¬ st.counter + 1 ≥ cfg.perThreadKeys - 1 ∧
      generate_op w tape st.ridx st.key_buffer st.inserted_keys (padKey rawKey cfg.keyLength)
        = some (op, qkey, kb, ik, r) ∧
      processLine cfg w tape st tks =
        .ok { st with current_thread := 1, counter := st.counter + 1,
                      key_buffer := kb, inserted_keys := ik, ridx := r,
                      ops := st.ops ++ [(0, op, qkey)] }) ∨
    (∃ rawKey op qkey kb ik r, acceptLine tks = some rawKey ∧ st.phase = .thread ∧
      st.current_thread ≠ cfg.numThreads ∧
      generate_op w tape st.ridx st.key_buffer st.inserted_keys (padKey rawKey cfg.keyLength)
        = some (op, qkey, kb, ik, r) ∧
      processLine cfg w tape st tks =
        .ok { st with current_thread := st.current_thread + 1,
                      key_buffer := kb, inserted_keys := ik, ridx := r,
                      ops := st.ops ++ [(st.current_thread, op, qkey)] }) ∨
    (∃ rawKey, acceptLine tks = some rawKey ∧ st.phase = .thread ∧
      generate_op w tape st.ridx st.key_buffer st.inserted_keys (padKey rawKey cfg.keyLength)
        = none ∧
      processLine cfg w tape st tks = .err) := by
  cases hacc : acceptLine tks with
  | none =>
    exact Or.inl ⟨rfl, by simp only [processLine, hacc]⟩
  | some rawKey =>
    cases hph : st.phase with
    | load =>
      by_cases hc : st.counter + 1 = cfg.initKeys + 1
      · refine Or.inr (Or.inl ⟨rawKey, rfl, rfl, hc, ?_⟩)
        simp only [processLine, hacc, hph]
        rw [if_pos hc]
      · refine Or.inr (Or.inr (Or.inl ⟨rawKey, rfl, rfl, hc, ?_⟩))
        simp only [processLine, hacc, hph]
        rw [if_neg hc]
    | thread =>
      by_cases hct : st.current_thread = cfg.numThreads
      · by_cases hbr : st.counter + 1 ≥ cfg.perThreadKeys - 1
        · refine Or.inr (Or.inr (Or.inr (Or.inl ⟨rawKey, rfl, rfl, hct, hbr, ?_⟩)))
          simp only [processLine, hacc, hph]
          rw [if_pos hct, if_pos hbr]
        · cases hg : generate_op w tape st.ridx st.key_buffer st.inserted_keys
              (padKey rawKey cfg.keyLength) with
          | none =>
            refine Or.inr (Or.inr (Or.inr (Or.inr (Or.inr (Or.inr
              ⟨rawKey, rfl, rfl, hg, ?_⟩)))))
            simp only [processLine, hacc, hph]
            rw [if_pos hct, if_neg hbr]
            simp only [hg]
          | some res =>
            obtain ⟨op, qkey, kb, ik, r⟩ := res
            refine Or.inr (Or.inr (Or.inr (Or.inr (Or.inl
              ⟨rawKey, op, qkey, kb, ik, r, rfl, rfl, hct, hbr, hg, ?_⟩))))
            simp only [processLine, hacc, hph]
            rw [if_pos hct, if_neg hbr]
            simp only [hg]
      · cases hg : generate_op w tape st.ridx st.key_buffer st.inserted_keys
            (padKey rawKey cfg.keyLength) with
        | none =>
          refine Or.inr (Or.inr (Or.inr (Or.inr (Or.inr (Or.inr
            ⟨rawKey, rfl, rfl, hg, ?_⟩)))))
          simp only [processLine, hacc, hph]
          rw [if_neg hct]
          simp only [hg]
        | some res =>
          obtain ⟨op, qkey, kb, ik, r⟩ := res
          refine Or.inr (Or.inr (Or.inr (Or.inr (Or.inr (Or.inl
            ⟨rawKey, op, qkey, kb, ik, r, rfl, rfl, hct, hg, ?_⟩)))))
          simp only [processLine, hacc, hph]
          rw [if_neg hct]
          simp only [hg]

/-- Case analysis of generate_op for workload D: a read (from an empty or
non-empty buffer) leaves the buffer unchanged; an insert pushes the key,
evicting the oldest entry when the buffer holds 10. -/
theorem generate_op_D_cases (tape : RandTape) (ridx : Nat)
    (kb ik : List String) (key : String) :
    (tape.floats ridx < 9/10 ∧ kb.length = 0 ∧
      generate_op .D tape ridx kb ik key = some ("r", key, kb, ik, ridx + 1)) ∨
    (tape.floats ridx < 9/10 ∧ kb.length ≠ 0 ∧
      generate_op .D tape ridx kb ik key
        = some ("r", kb.getD (tape.ints (ridx + 1) % kb.length) "", kb, ik, ridx + 2)) ∨
    (¬ tape.floats ridx < 9/10 ∧
      generate_op .D tape ridx kb ik key
        = some ("i", key, (if kb.length = 10 then kb.tail else kb) ++ [key], ik, ridx + 1)) := by
  by_cases hf : tape.floats ridx < 9/10
  · by_cases he : kb.length = 0
    · refine Or.inl ⟨hf, he, ?_⟩
      simp only [generate_op]
      rw [if_pos hf, if_pos he]
    · refine Or.inr (Or.inl ⟨hf, he, ?_⟩)
      simp only [generate_op]
      rw [if_pos hf, if_neg he]
  · refine Or.inr (Or.inr ⟨hf, ?_⟩)
    simp only [generate_op]
    rw [if_neg hf]

/-- Case analysis of generate_op for workload E: a scan draw fails on an
empty inserted-key sequence and otherwise picks an inserted key; an insert
appends the key to the inserted-key sequence. -/
theorem generate_op_E_cases (tape : RandTape) (ridx : Nat)
    (kb ik : List String) (key : String) :
    (tape.floats ridx < 9/10 ∧ ik.length = 0 ∧
      generate_op .E tape ridx kb ik key = none) ∨
    (tape.floats ridx < 9/10 ∧ ik.length ≠ 0 ∧
      generate_op .E tape ridx kb ik key
        = some ("s", ik.getD (tape.ints (ridx + 1) % ik.length) "", kb, ik, ridx + 2)) ∨
    (¬ tape.floats ridx < 9/10 ∧
      generate_op .E tape ridx kb ik key
        = some ("i", key, kb, ik ++ [key], ridx + 1)) := by
  by_cases hf : tape.floats ridx < 9/10
  · by_cases he : ik.length = 0
    · refine Or.inl ⟨hf, he, ?_⟩
      simp only [generate_op]
      rw [if_pos hf, if_pos he]
    · refine Or.inr (Or.inl ⟨hf, he, ?_⟩)
      simp only [generate_op]
      rw [if_pos hf, if_neg he]
  · refine Or.inr (Or.inr ⟨hf, ?_⟩)
    simp only [generate_op]
    rw [if_neg hf]

/-! Claim C6: the recent-key buffer of workload D never exceeds 10 entries. -/

theorem bufBound_ok (cfg : Config) (tape : RandTape) :
    ∀ st tks st₁, processLine cfg .D tape st tks = .ok st₁ →
      st.key_buffer.length ≤ 10 → st₁.key_buffer.length ≤ 10 := by
  intro st tks st₁ h hP
  rcases processLine_cases cfg .D tape st tks with
    ⟨hacc, heq⟩ |
    ⟨k, hacc, hph, hc, heq⟩ |
    ⟨k, hacc, hph, hc, heq⟩ |
    ⟨k, hacc, hph, hct, hbr, heq⟩ |
    ⟨k, op, qk, kb, ik, r, hacc, hph, hct, hbr, hg, heq⟩ |
    ⟨k, op, qk, kb, ik, r, hacc, hph, hct, hg, heq⟩ |
    ⟨k, hacc, hph, hg, heq⟩ <;>
    rw [heq] at h <;> cases h
  · exact hP
  · exact hP
  · exact hP
  all_goals {
    rcases generate_op_D_cases tape st.ridx st.key_buffer st.inserted_keys
        (padKey k cfg.keyLength) with ⟨h₁, h₂, hgeq⟩ | ⟨h₁, h₂, hgeq⟩ | ⟨h₁, hgeq⟩ <;>
      rw [hgeq] at hg <;>
      simp only [Option.some.injEq, Prod.mk.injEq] at hg <;>
      obtain ⟨-, -, hkb, -, -⟩ := hg <;>
      rw [← hkb]
    · exact hP
    · exact hP
    · by_cases h10 : st.key_buffer.length = 10
      · rw [if_pos h10]
        simp only [List.length_append, List.length_tail, List.length_cons,
          List.length_nil, h10]
        omega
      · rw [if_neg h10]
        simp only [List.length_append, List.length_cons, List.length_nil]
        omega
  }

theorem bufBound_brk (cfg : Config) (tape : RandTape) :
    ∀ st tks st₁, processLine cfg .D tape st tks = .brk st₁ →
      st.key_buffer.length ≤ 10 → st₁.key_buffer.length ≤ 10 := by
  intro st tks st₁ h hP
  rcases processLine_cases cfg .D tape st tks with
    ⟨hacc, heq⟩ |
    ⟨k, hacc, hph, hc, heq⟩ |
    ⟨k, hacc, hph, hc, heq⟩ |
    ⟨k, hacc, hph, hct, hbr, heq⟩ |
    ⟨k, op, qk, kb, ik, r, hacc, hph, hct, hbr, hg, heq⟩ |
    ⟨k, op, qk, kb, ik, r, hacc, hph, hct, hg, heq⟩ |
    ⟨k, hacc, hph, hg, heq⟩ <;>
    rw [heq] at h <;> cases h
  exact hP

/-- The final state of running the C1 scenario. -/
def stC1 : SynthState :=
  { phase := .thread, counter := 0, current_thread := 0, key_buffer := [],
    inserted_keys := ["keyA/", "keyB/"], load_lines := ["keyA/", "keyB/"],
    ops := [], ridx := 0 }

/-- A full recent-key buffer with 10 entries. -/
def kb10 : List String := List.replicate 10 "k"

/-- C6: for workload D, after processing any input (hence at every point
of any run after the phase transition, every intermediate point being the
final state of the correspondingly truncated input), the recent-key buffer
holds at most 10 entries; moreover an insert drawn while the buffer
already holds 10 entries evicts the oldest entry before pushing the new
key. -/
theorem C6_bufferBound (cfg : Config) (tape : RandTape)
    (files : List (List (List String))) (st₁ : SynthState)
    (ridx : Nat) (kb ik : List String) (key : String)
    (h : runSynth cfg .D tape files = some st₁) (hkb : kb.length = 10)
    (hr : ¬ tape.floats ridx < 9/10) :
    st₁.key_buffer.length ≤ 10 ∧
    generate_op .D tape ridx kb ik key
      = some ("i", key, kb.tail ++ [key], ik, ridx + 1) := by
  constructor
  · exact processFiles_inv cfg .D tape (fun st => st.key_buffer.length ≤ 10)
      (bufBound_ok cfg tape) (bufBound_brk cfg tape) files initState st₁ h
      (by decide)
  · simp only [generate_op]
    rw [if_neg hr, if_pos hkb]

/-- C6 at concrete inputs: the C1 scenario run under the all-ones tape
ends with a buffer of at most 10 entries, and a full 10-entry buffer
evicts its oldest entry on insert. -/
theorem C6_witness :
    stC1.key_buffer.length ≤ 10 ∧
    generate_op .D tapeHi 0 kb10 [] "x"
      = some ("i", "x", kb10.tail ++ ["x"], [], 0 + 1) :=
  C6_bufferBound cfgC1 tapeHi filesC1 stC1 0 kb10 [] "x"
    (by with_unfolding_all decide) (by decide) (by with_unfolding_all decide)

/-! Claims C5 and C2: round-robin thread assignment and the bound on the
number of generated operations. -/

/-- Accounting invariant: in the load phase nothing has been generated and
the thread cursor is 0; in the thread phase the number of generated
operations equals counter * numThreads + current_thread, the cursor never
exceeds numThreads, and the k-th operation went to worker k % numThreads. -/
def ThreadInv (cfg : Config) (st : SynthState) : Prop :=
  (st.phase = .load → st.ops = [] ∧ st.current_thread = 0) ∧
  (st.phase = .thread →
    st.ops.length = st.counter * cfg.numThreads + st.current_thread ∧
    st.current_thread ≤ cfg.numThreads ∧
    ∀ k, k < st.ops.length → (st.ops.getD k (0, "", "")).1 = k % cfg.numThreads)

theorem getD_concat_self (l : List (Nat × String × String))
    (a d : Nat × String × String) : (l ++ [a]).getD l.length d = a := by
  simp [List.getD_eq_getElem?_getD, List.getElem?_append_right]

theorem threadInv_ok (cfg : Config) (w : Workload) (tape : RandTape)
    (hN : 1 ≤ cfg.numThreads) :
    ∀ st tks st₁, processLine cfg w tape st tks = .ok st₁ →
      ThreadInv cfg st → ThreadInv cfg st₁ := by
  intro st tks st₁ h hP
  rcases processLine_cases cfg w tape st tks with
    ⟨hacc, heq⟩ |
    ⟨k, hacc, hph, hc, heq⟩ |
    ⟨k, hacc, hph, hc, heq⟩ |
    ⟨k, hacc, hph, hct, hbr, heq⟩ |
    ⟨k, op, qk, kb, ik, r, hacc, hph, hct, hbr, hg, heq⟩ |
    ⟨k, op, qk, kb, ik, r, hacc, hph, hct, hg, heq⟩ |
    ⟨k, hacc, hph, hg, heq⟩ <;>
    rw [heq] at h <;> cases h
  · exact hP
  · -- load phase transition: counter reset, cursor still 0, no operations
    obtain ⟨hops, hct0⟩ := hP.1 hph
    refine ⟨fun hh => Phase.noConfusion hh, fun _ => ?_⟩
    refine ⟨?_, ?_, ?_⟩
    · simp only [hops, List.length_nil, hct0, Nat.zero_mul, Nat.add_zero]
    · simp only [hct0]
      exact Nat.zero_le _
    · intro j hj
      simp only [hops, List.length_nil] at hj
      omega
  · -- load phase write: operations unchanged
    obtain ⟨hops, hct0⟩ := hP.1 hph
    refine ⟨fun _ => ⟨hops, hct0⟩, fun hh => ?_⟩
    rw [hph] at hh
    exact Phase.noConfusion hh
  · -- thread phase, cursor wrapped: write to worker 0
    obtain ⟨hlen, hle, hrr⟩ := hP.2 hph
    refine ⟨fun hh => ?_, fun _ => ?_⟩
    · rw [hph] at hh
      exact Phase.noConfusion hh
    · refine ⟨?_, hN, ?_⟩
      · simp only [List.length_append, List.length_cons, List.length_nil,
          hlen, hct, Nat.succ_mul]
      · intro j hj
        simp only [List.length_append, List.length_cons, List.length_nil] at hj
        rcases Nat.lt_or_ge j st.ops.length with hj₁ | hj₁
        · rw [List.getD_append _ _ _ _ hj₁]
          exact hrr j hj₁
        · have hj₂ : j = st.ops.length := by omega
          subst hj₂
          rw [getD_concat_self]
          have : st.ops.length % cfg.numThreads = 0 := by
            rw [hlen, hct, ← Nat.succ_mul, Nat.mul_comm, Nat.mul_mod_right]
          rw [this]
  · -- thread phase, no wrap: write to the current cursor
    obtain ⟨hlen, hle, hrr⟩ := hP.2 hph
    have hlt : st.current_thread < cfg.numThreads := Nat.lt_of_le_of_ne hle hct
    refine ⟨fun hh => ?_, fun _ => ?_⟩
    · rw [hph] at hh
      exact Phase.noConfusion hh
    · refine ⟨?_, hlt, ?_⟩
      · simp only [List.length_append, List.length_cons, List.length_nil, hlen]
        omega
      · intro j hj
        simp only [List.length_append, List.length_cons, List.length_nil] at hj
        rcases Nat.lt_or_ge j st.ops.length with hj₁ | hj₁
        · rw [List.getD_append _ _ _ _ hj₁]
          exact hrr j hj₁
        · have hj₂ : j = st.ops.length := by omega
          subst hj₂
          rw [getD_concat_self]
          rw [hlen, Nat.mul_comm, Nat.mul_add_mod]
          exact (Nat.mod_eq_of_lt hlt).symm

theorem threadInv_brk (cfg : Config) (w : Workload) (tape : RandTape) :
    ∀ st tks st₁, processLine cfg w tape st tks = .brk st₁ →
      ThreadInv cfg st → ThreadInv cfg st₁ := by
  intro st tks st₁ h hP
  rcases processLine_cases cfg w tape st tks with
    ⟨hacc, heq⟩ |
    ⟨k, hacc, hph, hc, heq⟩ |
    ⟨k, hacc, hph, hc, heq⟩ |
    ⟨k, hacc, hph, hct, hbr, heq⟩ |
    ⟨k, op, qk, kb, ik, r, hacc, hph, hct, hbr, hg, heq⟩ |
    ⟨k, op, qk, kb, ik, r, hacc, hph, hct, hg, heq⟩ |
    ⟨k, hacc, hph, hg, heq⟩ <;>
    rw [heq] at h <;> cases h
  obtain ⟨hlen, hle, hrr⟩ := hP.2 hph
  refine ⟨fun hh => ?_, fun _ => ?_⟩
  · rw [hph] at hh
    exact Phase.noConfusion hh
  · refine ⟨?_, Nat.zero_le _, hrr⟩
    show st.ops.length = (st.counter + 1) * cfg.numThreads + 0
    rw [hlen, hct, Nat.succ_mul]
    omega

theorem threadInv_init (cfg : Config) : ThreadInv cfg initState :=
  ⟨fun _ => ⟨rfl, rfl⟩, fun hh => Phase.noConfusion hh⟩

/-- C5: thread assignment is strictly round-robin: for every run with at
least one worker thread, the k-th generated operation (0-indexed, counting
from the phase transition) is written to worker file k mod numThreads. -/
theorem C5_roundRobin (cfg : Config) (w : Workload) (tape : RandTape)
    (files : List (List (List String))) (st₁ : SynthState)
    (hN : 1 ≤ cfg.numThreads) (h : runSynth cfg w tape files = some st₁) :
    ∀ k, k < st₁.ops.length →
      (st₁.ops.getD k (0, "", "")).1 = k % cfg.numThreads := by
  have hinv := processFiles_inv cfg w tape (ThreadInv cfg)
    (threadInv_ok cfg w tape hN) (threadInv_brk cfg w tape)
    files initState st₁ h (threadInv_init cfg)
  cases hph : st₁.phase with
  | load =>
    intro k hk
    rw [(hinv.1 hph).1] at hk
    simp at hk
  | thread =>
    exact (hinv.2 hph).2.2

/-- The final state of running cfg2 over files2 under the all-zero tape. -/
def st2 : SynthState :=
  { phase := .thread, counter := 3, current_thread := 0, key_buffer := [],
    inserted_keys := [], load_lines := [],
    ops := [(0, "r", "b////"), (0, "r", "e////"), (0, "r", "g////")], ridx := 3 }

/-- C5 at a concrete input: the second of the three operations generated
in the cfg2 run goes to worker 1 % 1 = 0. -/
theorem C5_witness : (st2.ops.getD 1 (0, "", "")).1 = 1 % cfg2.numThreads :=
  C5_roundRobin cfg2 .D tape0 files2 st2 (by decide)
    (by with_unfolding_all decide) 1 (by decide)

/-- The thread-phase round counter (0 while still loading). -/
def mval (st : SynthState) : Nat :=
  if st.phase = .thread then st.counter else 0

theorem mval_ok (cfg : Config) (w : Workload) (tape : RandTape) :
    ∀ st tks st₁, processLine cfg w tape st tks = .ok st₁ →
      mval st₁ ≤ max (mval st) (cfg.perThreadKeys - 2) := by
  intro st tks st₁ h
  rcases processLine_cases cfg w tape st tks with
    ⟨hacc, heq⟩ |
    ⟨k, hacc, hph, hc, heq⟩ |
    ⟨k, hacc, hph, hc, heq⟩ |
    ⟨k, hacc, hph, hct, hbr, heq⟩ |
    ⟨k, op, qk, kb, ik, r, hacc, hph, hct, hbr, hg, heq⟩ |
    ⟨k, op, qk, kb, ik, r, hacc, hph, hct, hg, heq⟩ |
    ⟨k, hacc, hph, hg, heq⟩ <;>
    rw [heq] at h <;> cases h
  · exact Nat.le_max_left _ _
  · simp only [mval, hph]
    exact Nat.zero_le _
  · simp only [mval, hph]
    exact Nat.zero_le _
  · -- wrap without break: the incremented counter stays below the bound
    simp only [mval, hph, if_pos]
    have : st.counter + 1 ≤ cfg.perThreadKeys - 2 := by omega
    exact Nat.le_trans this (Nat.le_max_right _ _)
  · simp only [mval, hph, if_pos]
    exact Nat.le_max_left _ _

theorem mval_brk (cfg : Config) (w : Workload) (tape : RandTape) :
    ∀ st tks st₁, processLine cfg w tape st tks = .brk st₁ →
      mval st₁ ≤ mval st + 1 := by
  intro st tks st₁ h
  rcases processLine_cases cfg w tape st tks with
    ⟨hacc, heq⟩ |
    ⟨k, hacc, hph, hc, heq⟩ |
    ⟨k, hacc, hph, hc, heq⟩ |
    ⟨k, hacc, hph, hct, hbr, heq⟩ |
    ⟨k, op, qk, kb, ik, r, hacc, hph, hct, hbr, hg, heq⟩ |
    ⟨k, op, qk, kb, ik, r, hacc, hph, hct, hg, heq⟩ |
    ⟨k, hacc, hph, hg, heq⟩ <;>
    rw [heq] at h <;> cases h
  simp only [mval, hph, if_pos]
  exact Nat.le_refl _

theorem processFile_mval (cfg : Config) (w : Workload) (tape : RandTape) :
    ∀ (lines : List (List String)) (st st₁ : SynthState),
      processFile cfg w tape st lines = some st₁ →
      mval st₁ ≤ max (mval st) (cfg.perThreadKeys - 2) + 1 := by
  intro lines
  induction lines with
  | nil =>
    intro st st₁ h
    have h₂ : some st = some st₁ := h
    cases h₂
    exact Nat.le_trans (Nat.le_max_left _ _) (Nat.le_succ _)
  | cons tks rest ih =>
    intro st st₁ h
    cases hl : processLine cfg w tape st tks with
    | ok s =>
      rw [show processFile cfg w tape st (tks :: rest)
            = processFile cfg w tape s rest by
          simp only [processFile, hl]] at h
      have h₁ := ih s st₁ h
      have h₂ := mval_ok cfg w tape st tks s hl
      have h₃ : max (mval s) (cfg.perThreadKeys - 2)
          ≤ max (mval st) (cfg.perThreadKeys - 2) :=
        Nat.max_le.mpr ⟨h₂, Nat.le_max_right _ _⟩
      omega
    | brk s =>
      rw [show processFile cfg w tape st (tks :: rest) = some s by
          simp only [processFile, hl]] at h
      cases h
      have h₂ := mval_brk cfg w tape st tks _ hl
      have h₃ : mval st ≤ max (mval st) (cfg.perThreadKeys - 2) :=
        Nat.le_max_left _ _
      omega
    | err =>
      rw [show processFile cfg w tape st (tks :: rest) = none by
          simp only [processFile, hl]] at h
      cases h

theorem processFiles_mval (cfg : Config) (w : Workload) (tape : RandTape) :
    ∀ (files : List (List (List String))) (st st₁ : SynthState),
      processFiles cfg w tape st files = some st₁ →
      mval st₁ ≤ max (mval st) (cfg.perThreadKeys - 2) + files.length := by
  intro files
  induction files with
  | nil =>
    intro st st₁ h
    have h₂ : some st = some st₁ := h
    cases h₂
    simp only [List.length_nil, Nat.add_zero]
    exact Nat.le_max_left _ _
  | cons f fs ih =>
    intro st st₁ h
    cases hf : processFile cfg w tape st f with
    | some s =>
      rw [show processFiles cfg w tape st (f :: fs)
            = processFiles cfg w tape s fs by
          simp only [processFiles, hf]] at h
      have h₁ := ih s st₁ h
      have h₂ := processFile_mval cfg w tape f st s hf
      have h₃ : max (mval s) (cfg.perThreadKeys - 2)
          ≤ max (mval st) (cfg.perThreadKeys - 2) + 1 :=
        Nat.max_le.mpr ⟨h₂, Nat.le_trans (Nat.le_max_right _ _) (Nat.le_succ _)⟩
      simp only [List.length_cons]
      omega
    | none =>
      rw [show processFiles cfg w tape st (f :: fs) = none by
          simp only [processFiles, hf]] at h
      cases h

/-- C2 (amended): the round-counter break terminates only the reading of
the current input file, not the whole run; each later file of the list
contributes up to numThreads further operations, so for at least one
thread and a positive per-thread target the total number of generated
operations is bounded by numThreads * (perThreadKeys + number of files)
rather than by numThreads * perThreadKeys. -/
theorem C2_amended (cfg : Config) (w : Workload) (tape : RandTape)
    (files : List (List (List String))) (st₁ : SynthState)
    (hN : 1 ≤ cfg.numThreads) (hPT : 1 ≤ cfg.perThreadKeys)
    (h : runSynth cfg w tape files = some st₁) :
    st₁.ops.length ≤ cfg.numThreads * (cfg.perThreadKeys + files.length) := by
  have hinv := processFiles_inv cfg w tape (ThreadInv cfg)
    (threadInv_ok cfg w tape hN) (threadInv_brk cfg w tape)
    files initState st₁ h (threadInv_init cfg)
  have hm := processFiles_mval cfg w tape files initState st₁ h
  have hm0 : mval initState = 0 := rfl
  rw [hm0, Nat.zero_max] at hm
  cases hph : st₁.phase with
  | load =>
    rw [(hinv.1 hph).1]
    exact Nat.zero_le _
  | thread =>
    obtain ⟨hlen, hle, -⟩ := hinv.2 hph
    have hc : st₁.counter ≤ cfg.perThreadKeys - 2 + files.length := by
      have : mval st₁ = st₁.counter := by
        simp only [mval, hph, if_pos]
      omega
    calc st₁.ops.length
        = st₁.counter * cfg.numThreads + st₁.current_thread := hlen
      _ ≤ st₁.counter * cfg.numThreads + cfg.numThreads :=
          Nat.add_le_add_left hle _
      _ = (st₁.counter + 1) * cfg.numThreads := (Nat.succ_mul _ _).symm
      _ ≤ (cfg.perThreadKeys + files.length) * cfg.numThreads :=
          Nat.mul_le_mul_right _ (by omega)
      _ = cfg.numThreads * (cfg.perThreadKeys + files.length) :=
          Nat.mul_comm _ _

/-- C2 (amended) at a concrete input: the cfg2 run generates 3 operations,
within the bound 1 * (2 + 3) = 5. -/
theorem C2_witness :
    st2.ops.length ≤ cfg2.numThreads * (cfg2.perThreadKeys + files2.length) :=
  C2_amended cfg2 .D tape0 files2 st2 (by decide) (by decide)
    (by with_unfolding_all decide)

/-! Claim C7: every workload-E scan targets a previously inserted key. -/

/-- Invariant for workload E: the inserted-key sequence is exactly the
load-file keys followed by the keys of the insert operations generated so
far, no operations exist during the load phase, and every scan operation
generated so far targets a load-written key or the key of an earlier
insert operation. -/
def ScanInv (st : SynthState) : Prop :=
  st.inserted_keys = st.load_lines ++ st.ops.filterMap insKey ∧
  (st.phase = .load → st.ops = []) ∧
  ∀ k, k < st.ops.length → (st.ops.getD k (0, "", "")).2.1 = "s" →
    (st.ops.getD k (0, "", "")).2.2 ∈
      st.load_lines ++ (st.ops.take k).filterMap insKey

theorem getD_mem_of_lt (l : List String) (n : Nat) (d : String)
    (h : n < l.length) : l.getD n d ∈ l := by
  rw [List.getD_eq_getElem l d h]
  exact List.getElem_mem h

theorem filterMap_insKey_scan (l : List (Nat × String × String))
    (t : Nat) (q : String) :
    (l ++ [(t, "s", q)]).filterMap insKey = l.filterMap insKey := by
  simp [List.filterMap_append, insKey]

theorem filterMap_insKey_ins (l : List (Nat × String × String))
    (t : Nat) (q : String) :
    (l ++ [(t, "i", q)]).filterMap insKey = l.filterMap insKey ++ [q] := by
  simp [List.filterMap_append, insKey]

theorem scanInv_ok (cfg : Config) (tape : RandTape) :
    ∀ st tks st₁, processLine cfg .E tape st tks = .ok st₁ →
      ScanInv st → ScanInv st₁ := by
  intro st tks st₁ h hP
  rcases processLine_cases cfg .E tape st tks with
    ⟨hacc, heq⟩ |
    ⟨k, hacc, hph, hc, heq⟩ |
    ⟨k, hacc, hph, hc, heq⟩ |
    ⟨k, hacc, hph, hct, hbr, heq⟩ |
    ⟨k, op, qk, kb, ik, r, hacc, hph, hct, hbr, hg, heq⟩ |
    ⟨k, op, qk, kb, ik, r, hacc, hph, hct, hg, heq⟩ |
    ⟨k, hacc, hph, hg, heq⟩ <;>
    rw [heq] at h <;> cases h
  · exact hP
  · -- phase transition: all three components untouched
    exact ⟨hP.1, fun hh => Phase.noConfusion hh, hP.2.2⟩
  · -- load write: same key goes to the load file and to inserted_keys
    obtain ⟨h₁, h₂, h₃⟩ := hP
    have hops := h₂ hph
    refine ⟨?_, fun _ => hops, ?_⟩
    · rw [h₁, hops]
      simp
    · intro j hj
      simp only [hops, List.length_nil] at hj
      omega
  · -- thread write after a wrap
    rcases generate_op_E_cases tape st.ridx st.key_buffer st.inserted_keys
        (padKey k cfg.keyLength) with ⟨h₁, h₂, hgeq⟩ | ⟨h₁, h₂, hgeq⟩ | ⟨h₁, hgeq⟩
    · rw [hgeq] at hg
      cases hg
    · -- scan: target drawn from inserted_keys, which never shrinks
      rw [hgeq] at hg
      simp only [Option.some.injEq, Prod.mk.injEq] at hg
      obtain ⟨hop, hqk, hkb, hik, -⟩ := hg
      subst hop
      subst hqk
      subst hkb
      subst hik
      refine ⟨?_, fun hh => by rw [hph] at hh; exact Phase.noConfusion hh, ?_⟩
      · rw [filterMap_insKey_scan, hP.1]
      · intro j hj hs
        simp only [List.length_append, List.length_cons, List.length_nil] at hj
        rcases Nat.lt_or_ge j st.ops.length with hj₁ | hj₁
        · rw [List.getD_append _ _ _ _ hj₁] at hs ⊢
          rw [List.take_append_of_le_length (Nat.le_of_lt hj₁)]
          exact hP.2.2 j hj₁ hs
        · have hj₂ : j = st.ops.length := by omega
          subst hj₂
          rw [getD_concat_self]
          rw [List.take_append_of_le_length (Nat.le_refl _), List.take_length]
          rw [← hP.1]
          exact getD_mem_of_lt _ _ _
            (Nat.mod_lt _ (Nat.pos_of_ne_zero h₂))
    · -- insert: the new key appended to both sequences
      rw [hgeq] at hg
      simp only [Option.some.injEq, Prod.mk.injEq] at hg
      obtain ⟨hop, hqk, hkb, hik, -⟩ := hg
      subst hop
      subst hqk
      subst hkb
      subst hik
      refine ⟨?_, fun hh => by rw [hph] at hh; exact Phase.noConfusion hh, ?_⟩
      · rw [filterMap_insKey_ins, hP.1, List.append_assoc]
      · intro j hj hs
        simp only [List.length_append, List.length_cons, List.length_nil] at hj
        rcases Nat.lt_or_ge j st.ops.length with hj₁ | hj₁
        · rw [List.getD_append _ _ _ _ hj₁] at hs ⊢
          rw [List.take_append_of_le_length (Nat.le_of_lt hj₁)]
          exact hP.2.2 j hj₁ hs
        · have hj₂ : j = st.ops.length := by omega
          subst hj₂
          rw [getD_concat_self] at hs
          have hs₂ : ("i" : String) = "s" := hs
          exact absurd hs₂ (by decide)
  · -- thread write without a wrap: same two generate_op cases
    rcases generate_op_E_cases tape st.ridx st.key_buffer st.inserted_keys
        (padKey k cfg.keyLength) with ⟨h₁, h₂, hgeq⟩ | ⟨h₁, h₂, hgeq⟩ | ⟨h₁, hgeq⟩
    · rw [hgeq] at hg
      cases hg
    · rw [hgeq] at hg
      simp only [Option.some.injEq, Prod.mk.injEq] at hg
      obtain ⟨hop, hqk, hkb, hik, -⟩ := hg
      subst hop
      subst hqk
      subst hkb
      subst hik
      refine ⟨?_, fun hh => by rw [hph] at hh; exact Phase.noConfusion hh, ?_⟩
      · rw [filterMap_insKey_scan, hP.1]
      · intro j hj hs
        simp only [List.length_append, List.length_cons, List.length_nil] at hj
        rcases Nat.lt_or_ge j st.ops.length with hj₁ | hj₁
        · rw [List.getD_append _ _ _ _ hj₁] at hs ⊢
          rw [List.take_append_of_le_length (Nat.le_of_lt hj₁)]
          exact hP.2.2 j hj₁ hs
        · have hj₂ : j = st.ops.length := by omega
          subst hj₂
          rw [getD_concat_self]
          rw [List.take_append_of_le_length (Nat.le_refl _), List.take_length]
          rw [← hP.1]
          exact getD_mem_of_lt _ _ _
            (Nat.mod_lt _ (Nat.pos_of_ne_zero h₂))
    · rw [hgeq] at hg
      simp only [Option.some.injEq, Prod.mk.injEq] at hg
      obtain ⟨hop, hqk, hkb, hik, -⟩ := hg
      subst hop
      subst hqk
      subst hkb
      subst hik
      refine ⟨?_, fun hh => by rw [hph] at hh; exact Phase.noConfusion hh, ?_⟩
      · rw [filterMap_insKey_ins, hP.1, List.append_assoc]
      · intro j hj hs
        simp only [List.length_append, List.length_cons, List.length_nil] at hj
        rcases Nat.lt_or_ge j st.ops.length with hj₁ | hj₁
        · rw [List.getD_append _ _ _ _ hj₁] at hs ⊢
          rw [List.take_append_of_le_length (Nat.le_of_lt hj₁)]
          exact hP.2.2 j hj₁ hs
        · have hj₂ : j = st.ops.length := by omega
          subst hj₂
          rw [getD_concat_self] at hs
          have hs₂ : ("i" : String) = "s" := hs
          exact absurd hs₂ (by decide)

theorem scanInv_brk (cfg : Config) (tape : RandTape) :
    ∀ st tks st₁, processLine cfg .E tape st tks = .brk st₁ →
      ScanInv st → ScanInv st₁ := by
  intro st tks st₁ h hP
  rcases processLine_cases cfg .E tape st tks with
    ⟨hacc, heq⟩ |
    ⟨k, hacc, hph, hc, heq⟩ |
    ⟨k, hacc, hph, hc, heq⟩ |
    ⟨k, hacc, hph, hct, hbr, heq⟩ |
    ⟨k, op, qk, kb, ik, r, hacc, hph, hct, hbr, hg, heq⟩ |
    ⟨k, op, qk, kb, ik, r, hacc, hph, hct, hg, heq⟩ |
    ⟨k, hacc, hph, hg, heq⟩ <;>
    rw [heq] at h <;> cases h
  exact ⟨hP.1, fun hh => by rw [hph] at hh; exact Phase.noConfusion hh, hP.2.2⟩

/-- C7: for workload E, every key targeted by a scan operation was
previously inserted — either written during the load phase or emitted by
an earlier synthesizer insert operation. -/
theorem C7_scanSource (cfg : Config) (tape : RandTape)
    (files : List (List (List String))) (st₁ : SynthState)
    (h : runSynth cfg .E tape files = some st₁) :
    ∀ k, k < st₁.ops.length → (st₁.ops.getD k (0, "", "")).2.1 = "s" →
      (st₁.ops.getD k (0, "", "")).2.2 ∈
        st₁.load_lines ++ (st₁.ops.take k).filterMap insKey :=
  (processFiles_inv cfg .E tape ScanInv (scanInv_ok cfg tape)
    (scanInv_brk cfg tape) files initState st₁ h
    ⟨rfl, fun _ => rfl, fun j hj => by simp [initState] at hj⟩).2.2

/-- Configuration for the small workload-E runs: one thread, one load key,
key width 3. -/
def cfgE : Config := ⟨1, 1, 100, 3⟩

/-- One file with three accepted records. -/
def filesE : List (List (List String)) :=
  [[["L", "a"], ["L", "b"], ["L", "c"]]]

/-- The final state of running cfgE over filesE under the all-zero tape:
"a" is load-written, "b" is consumed by the transition, "c" draws a scan
of the only inserted key "a//". -/
def stE : SynthState :=
  { phase := .thread, counter := 0, current_thread := 1, key_buffer := [],
    inserted_keys := ["a//"], load_lines := ["a//"],
    ops := [(0, "s", "a//")], ridx := 2 }

/-- C7 at a concrete input: the scan generated by the cfgE run targets the
load-written key "a//". -/
theorem C7_witness :
    (stE.ops.getD 0 (0, "", "")).2.2 ∈
      stE.load_lines ++ (stE.ops.take 0).filterMap insKey :=
  C7_scanSource cfgE tape0 filesE stE (by with_unfolding_all decide) 0
    (by decide) (by decide)

/-! Claim C10: the workload-E scan branch and the empty inserted-key set. -/

/-- Invariant for workload E: during the load phase the inserted-key count
equals the accepted-record counter; in the thread phase at least one key
has been inserted (this needs InitialLoadCount ≥ 1). -/
def NonemptyInv (st : SynthState) : Prop :=
  (st.phase = .load → st.inserted_keys.length = st.counter) ∧
  (st.phase = .thread → 1 ≤ st.inserted_keys.length)

theorem nonemptyInv_ok (cfg : Config) (tape : RandTape)
    (hI : 1 ≤ cfg.initKeys) :
    ∀ st tks st₁, processLine cfg .E tape st tks = .ok st₁ →
      NonemptyInv st → NonemptyInv st₁ := by
  intro st tks st₁ h hP
  rcases processLine_cases cfg .E tape st tks with
    ⟨hacc, heq⟩ |
    ⟨k, hacc, hph, hc, heq⟩ |
    ⟨k, hacc, hph, hc, heq⟩ |
    ⟨k, hacc, hph, hct, hbr, heq⟩ |
    ⟨k, op, qk, kb, ik, r, hacc, hph, hct, hbr, hg, heq⟩ |
    ⟨k, op, qk, kb, ik, r, hacc, hph, hct, hg, heq⟩ |
    ⟨k, hacc, hph, hg, heq⟩ <;>
    rw [heq] at h <;> cases h
  · exact hP
  · -- transition: the counter has just reached initKeys ≥ 1
    have hcnt := hP.1 hph
    refine ⟨fun hh => Phase.noConfusion hh, fun _ => ?_⟩
    show 1 ≤ st.inserted_keys.length
    omega
  · -- load write: counter and inserted-key count advance together
    have hcnt := hP.1 hph
    refine ⟨fun _ => ?_, fun hh => by rw [hph] at hh; exact Phase.noConfusion hh⟩
    show (st.inserted_keys ++ [padKey k cfg.keyLength]).length = st.counter + 1
    rw [List.length_append, hcnt]
    rfl
  · -- thread write after a wrap: inserted_keys never shrinks
    rcases generate_op_E_cases tape st.ridx st.key_buffer st.inserted_keys
        (padKey k cfg.keyLength) with ⟨h₁, h₂, hgeq⟩ | ⟨h₁, h₂, hgeq⟩ | ⟨h₁, hgeq⟩
    · rw [hgeq] at hg
      cases hg
    · rw [hgeq] at hg
      simp only [Option.some.injEq, Prod.mk.injEq] at hg
      obtain ⟨-, -, -, hik, -⟩ := hg
      subst hik
      refine ⟨fun hh => by rw [hph] at hh; exact Phase.noConfusion hh, fun _ => ?_⟩
      exact hP.2 hph
    · rw [hgeq] at hg
      simp only [Option.some.injEq, Prod.mk.injEq] at hg
      obtain ⟨-, -, -, hik, -⟩ := hg
      subst hik
      refine ⟨fun hh => by rw [hph] at hh; exact Phase.noConfusion hh, fun _ => ?_⟩
      have := hP.2 hph
      show 1 ≤ (st.inserted_keys ++ [padKey k cfg.keyLength]).length
      rw [List.length_append]
      omega
  · -- thread write without a wrap
    rcases generate_op_E_cases tape st.ridx st.key_buffer st.inserted_keys
        (padKey k cfg.keyLength) with ⟨h₁, h₂, hgeq⟩ | ⟨h₁, h₂, hgeq⟩ | ⟨h₁, hgeq⟩
    · rw [hgeq] at hg
      cases hg
    · rw [hgeq] at hg
      simp only [Option.some.injEq, Prod.mk.injEq] at hg
      obtain ⟨-, -, -, hik, -⟩ := hg
      subst hik
      refine ⟨fun hh => by rw [hph] at hh; exact Phase.noConfusion hh, fun _ => ?_⟩
      exact hP.2 hph
    · rw [hgeq] at hg
      simp only [Option.some.injEq, Prod.mk.injEq] at hg
      obtain ⟨-, -, -, hik, -⟩ := hg
      subst hik
      refine ⟨fun hh => by rw [hph] at hh; exact Phase.noConfusion hh, fun _ => ?_⟩
      have := hP.2 hph
      show 1 ≤ (st.inserted_keys ++ [padKey k cfg.keyLength]).length
      rw [List.length_append]
      omega
  
theorem nonemptyInv_brk (cfg : Config) (tape : RandTape) :
    ∀ st tks st₁, processLine cfg .E tape st tks = .brk st₁ →
      NonemptyInv st → NonemptyInv st₁ := by
  intro st tks st₁ h hP
  rcases processLine_cases cfg .E tape st tks with
    ⟨hacc, heq⟩ |
    ⟨k, hacc, hph, hc, heq⟩ |
    ⟨k, hacc, hph, hc, heq⟩ |
    ⟨k, hacc, hph, hct, hbr, heq⟩ |
    ⟨k, op, qk, kb, ik, r, hacc, hph, hct, hbr, hg, heq⟩ |
    ⟨k, op, qk, kb, ik, r, hacc, hph, hct, hg, heq⟩ |
    ⟨k, hacc, hph, hg, heq⟩ <;>
    rw [heq] at h <;> cases h
  exact ⟨fun hh => by rw [hph] at hh; exact Phase.noConfusion hh,
    fun _ => hP.2 hph⟩

theorem nonemptyInv_ne_err (cfg : Config) (tape : RandTape) :
    ∀ st tks, NonemptyInv st → processLine cfg .E tape st tks ≠ .err := by
  intro st tks hP hbad
  rcases processLine_cases cfg .E tape st tks with
    ⟨hacc, heq⟩ |
    ⟨k, hacc, hph, hc, heq⟩ |
    ⟨k, hacc, hph, hc, heq⟩ |
    ⟨k, hacc, hph, hct, hbr, heq⟩ |
    ⟨k, op, qk, kb, ik, r, hacc, hph, hct, hbr, hg, heq⟩ |
    ⟨k, op, qk, kb, ik, r, hacc, hph, hct, hg, heq⟩ |
    ⟨k, hacc, hph, hg, heq⟩ <;>
    rw [heq] at hbad <;> cases hbad
  rcases generate_op_E_cases tape st.ridx st.key_buffer st.inserted_keys
      (padKey k cfg.keyLength) with ⟨h₁, h₂, hgeq⟩ | ⟨h₁, h₂, hgeq⟩ | ⟨h₁, hgeq⟩ <;>
    rw [hgeq] at hg
  · have := hP.2 hph
    omega
  · cases hg
  · cases hg

/-- C10: if an accepted key reaches the workload-E synthesizer while the
inserted-key set is empty and the drawn fraction is below 0.9, the scan
target selection fails (randrange over an empty range); and whenever
InitialLoadCount ≥ 1 and at least one record of the stream is accepted,
this failure branch is unreachable: the whole run completes. -/
theorem C10_scanSafety (cfg : Config) (tape : RandTape)
    (files : List (List (List String))) (ridx : Nat) (kb : List String)
    (key : String) :
    (tape.floats ridx < 9/10 → generate_op .E tape ridx kb [] key = none) ∧
    (1 ≤ cfg.initKeys → 1 ≤ (acceptedOf files).length →
      runSynth cfg .E tape files ≠ none) := by
  constructor
  · intro hf
    simp only [generate_op]
    rw [if_pos hf]
    rfl
  · intro hI _
    exact processFiles_ne_none cfg .E tape NonemptyInv
      (nonemptyInv_ok cfg tape hI) (nonemptyInv_brk cfg tape)
      (nonemptyInv_ne_err cfg tape) files initState
      ⟨fun _ => rfl, fun hh => Phase.noConfusion hh⟩

/-- C10 at concrete inputs: the empty-set scan draw fails, while the cfgE
run (one load-inserted key) completes. -/
theorem C10_witness :
    generate_op .E tape0 0 [] [] "k" = none ∧
    runSynth cfgE .E tape0 filesE ≠ none := by
  constructor
  · exact (C10_scanSafety cfgE tape0 filesE 0 [] "k").1
      (by with_unfolding_all decide)
  · exact (C10_scanSafety cfgE tape0 filesE 0 [] "k").2 (by decide) (by decide)

/-! Claim C4: the content of the load file. -/

/-- Ghost invariant relating the state to the accepted keys `a` consumed
so far: the load file holds the normalizations of the first initKeys of
them; while loading, the counter counts them and stays within initKeys;
once in the thread phase, at least initKeys of them have been consumed (so
the taken prefix is frozen). -/
def LoadInv (cfg : Config) (a : List String) (st : SynthState) : Prop :=
  st.load_lines = (a.take cfg.initKeys).map (fun x => padKey x cfg.keyLength) ∧
  (st.phase = .load → st.counter = a.length ∧ a.length ≤ cfg.initKeys) ∧
  (st.phase = .thread → cfg.initKeys ≤ a.length)

theorem loadInv_absorb (cfg : Config) (a e : List String) (st : SynthState)
    (hph : st.phase = .thread) (hP : LoadInv cfg a st) :
    LoadInv cfg (a ++ e) st := by
  obtain ⟨h₁, h₂, h₃⟩ := hP
  have hlen := h₃ hph
  refine ⟨?_, fun hh => ?_, fun _ => ?_⟩
  · rw [h₁, List.take_append_of_le_length hlen]
  · rw [hph] at hh
    exact Phase.noConfusion hh
  · rw [List.length_append]
    omega

theorem loadInv_ok (cfg : Config) (w : Workload) (tape : RandTape) :
    ∀ st tks st₁, processLine cfg w tape st tks = .ok st₁ →
      ∀ a, LoadInv cfg a st →
        LoadInv cfg (a ++ (acceptLine tks).toList) st₁ := by
  intro st tks st₁ h a hP
  rcases processLine_cases cfg w tape st tks with
    ⟨hacc, heq⟩ |
    ⟨k, hacc, hph, hc, heq⟩ |
    ⟨k, hacc, hph, hc, heq⟩ |
    ⟨k, hacc, hph, hct, hbr, heq⟩ |
    ⟨k, op, qk, kb, ik, r, hacc, hph, hct, hbr, hg, heq⟩ |
    ⟨k, op, qk, kb, ik, r, hacc, hph, hct, hg, heq⟩ |
    ⟨k, hacc, hph, hg, heq⟩ <;>
    rw [heq] at h <;> cases h <;> rw [hacc]
  · -- rejected line: nothing accepted, state unchanged
    show LoadInv cfg (a ++ []) st
    rw [List.append_nil]
    exact hP
  · -- transition: the consumed key is dropped; initKeys keys were consumed
    obtain ⟨h₁, h₂, h₃⟩ := hP
    obtain ⟨hcnt, hcle⟩ := h₂ hph
    have hak : cfg.initKeys ≤ a.length := by omega
    refine ⟨?_, fun hh => Phase.noConfusion hh, fun _ => ?_⟩
    · show st.load_lines
        = ((a ++ [k]).take cfg.initKeys).map (fun x => padKey x cfg.keyLength)
      rw [List.take_append_of_le_length hak]
      exact h₁
    · rw [List.length_append]
      omega
  · -- load write: the accepted key is appended to the load file
    obtain ⟨h₁, h₂, h₃⟩ := hP
    obtain ⟨hcnt, hcle⟩ := h₂ hph
    have halt : a.length < cfg.initKeys := by omega
    have h₁a : st.load_lines = a.map (fun x => padKey x cfg.keyLength) := by
      rw [h₁, List.take_of_length_le (Nat.le_of_lt halt)]
    refine ⟨?_, fun _ => ?_, fun hh => ?_⟩
    · show st.load_lines ++ [padKey k cfg.keyLength]
        = ((a ++ [k]).take cfg.initKeys).map (fun x => padKey x cfg.keyLength)
      rw [List.take_of_length_le
          (by simp only [List.length_append, List.length_cons, List.length_nil]; omega)]
      rw [List.map_append, h₁a]
      rfl
    · constructor
      · show st.counter + 1 = (a ++ [k]).length
        simp only [List.length_append, List.length_cons, List.length_nil]
        omega
      · show (a ++ [k]).length ≤ cfg.initKeys
        simp only [List.length_append, List.length_cons, List.length_nil]
        omega
    · rw [hph] at hh
      exact Phase.noConfusion hh
  · -- thread write after a wrap: load file frozen
    obtain ⟨h₁, h₂, h₃⟩ := hP
    have hlen := h₃ hph
    refine ⟨?_, fun hh => by rw [hph] at hh; exact Phase.noConfusion hh, fun _ => ?_⟩
    · show st.load_lines
        = ((a ++ [k]).take cfg.initKeys).map (fun x => padKey x cfg.keyLength)
      rw [List.take_append_of_le_length hlen]
      exact h₁
    · rw [List.length_append]
      omega
  · -- thread write without a wrap: load file frozen
    obtain ⟨h₁, h₂, h₃⟩ := hP
    have hlen := h₃ hph
    refine ⟨?_, fun hh => by rw [hph] at hh; exact Phase.noConfusion hh, fun _ => ?_⟩
    · show st.load_lines
        = ((a ++ [k]).take cfg.initKeys).map (fun x => padKey x cfg.keyLength)
      rw [List.take_append_of_le_length hlen]
      exact h₁
    · rw [List.length_append]
      omega

theorem loadInv_brk (cfg : Config) (w : Workload) (tape : RandTape) :
    ∀ st tks st₁, processLine cfg w tape st tks = .brk st₁ →
      st₁.phase = .thread ∧
      ∀ a, LoadInv cfg a st →
        LoadInv cfg (a ++ (acceptLine tks).toList) st₁ := by
  intro st tks st₁ h
  rcases processLine_cases cfg w tape st tks with
    ⟨hacc, heq⟩ |
    ⟨k, hacc, hph, hc, heq⟩ |
    ⟨k, hacc, hph, hc, heq⟩ |
    ⟨k, hacc, hph, hct, hbr, heq⟩ |
    ⟨k, op, qk, kb, ik, r, hacc, hph, hct, hbr, hg, heq⟩ |
    ⟨k, op, qk, kb, ik, r, hacc, hph, hct, hg, heq⟩ |
    ⟨k, hacc, hph, hg, heq⟩ <;>
    rw [heq] at h <;> cases h
  refine ⟨hph, ?_⟩
  intro a hP
  rw [hacc]
  obtain ⟨h₁, h₂, h₃⟩ := hP
  have hlen := h₃ hph
  refine ⟨?_, fun hh => by rw [hph] at hh; exact Phase.noConfusion hh, fun _ => ?_⟩
  · show st.load_lines
      = ((a ++ [k]).take cfg.initKeys).map (fun x => padKey x cfg.keyLength)
    rw [List.take_append_of_le_length hlen]
    exact h₁
  · rw [List.length_append]
    omega

theorem processFile_loadInv (cfg : Config) (w : Workload) (tape : RandTape) :
    ∀ (lines : List (List String)) (st st₁ : SynthState) (a : List String),
      processFile cfg w tape st lines = some st₁ →
      LoadInv cfg a st → LoadInv cfg (a ++ fileAccepted lines) st₁ := by
  intro lines
  induction lines with
  | nil =>
    intro st st₁ a h hP
    have h₂ : some st = some st₁ := h
    cases h₂
    show LoadInv cfg (a ++ fileAccepted []) st
    rw [show fileAccepted [] = [] from rfl, List.append_nil]
    exact hP
  | cons tks rest ih =>
    intro st st₁ a h hP
    have hsplit : fileAccepted (tks :: rest)
        = (acceptLine tks).toList ++ fileAccepted rest := by
      cases hacc : acceptLine tks <;>
        simp [fileAccepted, List.filterMap_cons, hacc, Option.toList]
    cases hl : processLine cfg w tape st tks with
    | ok s =>
      rw [show processFile cfg w tape st (tks :: rest)
            = processFile cfg w tape s rest by
          simp only [processFile, hl]] at h
      have hstep := loadInv_ok cfg w tape st tks s hl a hP
      have hrest := ih s st₁ (a ++ (acceptLine tks).toList) h hstep
      rw [hsplit, ← List.append_assoc]
      exact hrest
    | brk s =>
      rw [show processFile cfg w tape st (tks :: rest) = some s by
          simp only [processFile, hl]] at h
      cases h
      have hstep := loadInv_brk cfg w tape st tks _ hl
      rw [hsplit, ← List.append_assoc]
      exact loadInv_absorb cfg _ _ _ hstep.1 (hstep.2 a hP)
    | err =>
      rw [show processFile cfg w tape st (tks :: rest) = none by
          simp only [processFile, hl]] at h
      cases h

theorem processFiles_loadInv (cfg : Config) (w : Workload) (tape : RandTape) :
    ∀ (files : List (List (List String))) (st st₁ : SynthState) (a : List String),
      processFiles cfg w tape st files = some st₁ →
      LoadInv cfg a st → LoadInv cfg (a ++ acceptedOf files) st₁ := by
  intro files
  induction files with
  | nil =>
    intro st st₁ a h hP
    have h₂ : some st = some st₁ := h
    cases h₂
    show LoadInv cfg (a ++ acceptedOf []) st
    rw [show acceptedOf [] = [] from rfl, List.append_nil]
    exact hP
  | cons f fs ih =>
    intro st st₁ a h hP
    cases hf : processFile cfg w tape st f with
    | some s =>
      rw [show processFiles cfg w tape st (f :: fs)
            = processFiles cfg w tape s fs by
          simp only [processFiles, hf]] at h
      have hstep := processFile_loadInv cfg w tape f st s a hf hP
      have hrest := ih s st₁ (a ++ fileAccepted f) h hstep
      rw [show acceptedOf (f :: fs) = fileAccepted f ++ acceptedOf fs from rfl,
        ← List.append_assoc]
      exact hrest
    | none =>
      rw [show processFiles cfg w tape st (f :: fs) = none by
          simp only [processFiles, hf]] at h
      cases h

/-- C4: the load file holds exactly the normalizations of the first
min(initKeys, totalAccepted) accepted keys of the stream, in input order;
in particular its length is min(initKeys, totalAccepted), and (the load
prefix being frozen once the phase switches) no load write happens after
the transition. -/
theorem C4_loadFile (cfg : Config) (w : Workload) (tape : RandTape)
    (files : List (List (List String))) (st₁ : SynthState)
    (h : runSynth cfg w tape files = some st₁) :
    st₁.load_lines
      = ((acceptedOf files).take cfg.initKeys).map (fun x => padKey x cfg.keyLength) ∧
    st₁.load_lines.length = min cfg.initKeys (acceptedOf files).length := by
  have hinit : LoadInv cfg [] initState := by
    refine ⟨?_, fun _ => ⟨rfl, Nat.zero_le _⟩, fun hh => Phase.noConfusion hh⟩
    simp [initState, LoadInv]
  have hfin := processFiles_loadInv cfg w tape files initState st₁ [] h hinit
  rw [List.nil_append] at hfin
  refine ⟨hfin.1, ?_⟩
  rw [hfin.1, List.length_map, List.length_take]

/-- C4 at a concrete input: the C1 scenario yields load file
["keyA/", "keyB/"] = padding of the first min(2, 3) accepted keys. -/
theorem C4_witness :
    stC1.load_lines
      = ((acceptedOf filesC1).take cfgC1.initKeys).map
          (fun x => padKey x cfgC1.keyLength) ∧
    stC1.load_lines.length = min cfgC1.initKeys (acceptedOf filesC1).length :=
  C4_loadFile cfgC1 .D tape0 filesC1 stC1 (by with_unfolding_all decide)

end Memetracker
